import Mathlib

/-!
Shallow embedding of the `ahlib` configuration machinery
(`src/ahlib/ahlib.py` and `src/Standardfunktionen_aktuell.py`) with proofs
about the structured-value parser, the document loaders, the logging
helper and the file-availability checker.

Python strings are modelled as `List Char` (`Str`).  String helpers used
by the source (`strip`, `lower`, `upper`, `isdigit`, `replace`, `split`,
`in`, `startswith`, `endswith`) are translated below.  The translation
models the ASCII range of the Python text predicates (`str.isdigit`,
`str.upper`, `str.lower`, whitespace stripping); configuration files in
this repository are ASCII INI text.
-/

set_option maxRecDepth 10000

abbrev Str := List Char

namespace Ahlib

/-- Python `str.lstrip()` over ASCII whitespace. -/
def lstrip (s : Str) : Str := s.dropWhile Char.isWhitespace

/-- Python `str.rstrip()` over ASCII whitespace. -/
def rstrip (s : Str) : Str := (s.reverse.dropWhile Char.isWhitespace).reverse

/-- Python `str.strip()` over ASCII whitespace. -/
def strip (s : Str) : Str := rstrip (lstrip s)

/-- Python `str.lower()` (ASCII range). -/
def lower (s : Str) : Str := s.map Char.toLower

/-- Python `str.upper()` (ASCII range). -/
def upper (s : Str) : Str := s.map Char.toUpper

/-- Python `c in s` for a single character. -/
def containsChar (s : Str) (c : Char) : Bool := s.contains c

/-- Python `s.startswith(p)`. -/
def startswith (s p : Str) : Bool := p.isPrefixOf s

/-- Python `s.endswith(p)`. -/
def endswith (s p : Str) : Bool := p.isSuffixOf s

/-- Python `s.isdigit()` restricted to the ASCII decimal digits:
nonempty and every character a decimal digit. -/
def isdigitStr (s : Str) : Bool := !s.isEmpty && s.all Char.isDigit

/-- Python `s.replace('.', '', 1)`: remove the first `'.'` only. -/
def removeFirstDot : Str → Str
  | [] => []
  | c :: rest => if c = '.' then rest else c :: removeFirstDot rest

/-- Python `[v.strip() for v in s.split(',')]`. -/
def splitCommaStrip (s : Str) : List Str := (s.splitOn ',').map strip

/-- Value of a decimal digit string, as Python `int()` computes it. -/
def natOfDigits (s : Str) : Nat := s.foldl (fun a c => a * 10 + (c.toNat - '0'.toNat)) 0

/-!
## Python values and `ast.literal_eval`

`settings_import` and `StructuredConfigParser._parse_value` hand bracketed
raw values to `ast.literal_eval`.  `PyVal` is the space of Python literal
values the INI files use; `literal_eval` is a recursive-descent model of
`ast.literal_eval` on that subset: `None`, booleans (`True`/`False`),
integers and decimal floats with an optional sign, single- or
double-quoted strings with backslash escapes, lists, tuples (including
the Python rule that a parenthesized single value without a trailing
comma is just that value) and dicts, with arbitrary nesting and
whitespace.  Set displays, exponent notation, and implicit string
concatenation are outside the modelled subset (none occur in the
repository's configuration data); on that subset the model fails exactly
where `ast.literal_eval` raises.
-/

inductive PyVal where
  | pyNone
  | bool (b : Bool)
  | int (n : Int)
  | float (q : ℚ)
  | str (s : Str)
  | list (xs : List PyVal)
  | tuple (xs : List PyVal)
  | dict (kvs : List (PyVal × PyVal))

def skipWs (s : Str) : Str := s.dropWhile Char.isWhitespace

/-- Body of a quoted string literal: consume up to the closing `quote`,
resolving backslash escapes the way the Python tokenizer does (unknown
escapes keep the backslash). -/
def parseStrBody (quote : Char) : Str → Option (Str × Str)
  | [] => none
  | '\\' :: e :: rest =>
    let ec : Str :=
      if e = 'n' then ['\n'] else if e = 't' then ['\t'] else if e = 'r' then ['\r']
      else if e = '\\' then ['\\'] else if e = '\'' then ['\''] else if e = '"' then ['"']
      else ['\\', e]
    match parseStrBody quote rest with
    | some (s, r) => some (ec ++ s, r)
    | none => none
  | ['\\'] => none
  | c :: rest =>
    if c = quote then some ([], rest)
    else match parseStrBody quote rest with
      | some (s, r) => some (c :: s, r)
      | none => none

/-- Signed integer or decimal-float literal (no exponent). -/
def parseNumber (s : Str) : Option (PyVal × Str) :=
  let (neg, s1) :=
    match s with
    | '-' :: r => (true, skipWs r)
    | '+' :: r => (false, skipWs r)
    | _ => (false, s)
  let ip := s1.takeWhile Char.isDigit
  let rest1 := s1.dropWhile Char.isDigit
  match rest1 with
  | '.' :: r2 =>
    let fp := r2.takeWhile Char.isDigit
    if ip.isEmpty && fp.isEmpty then none
    else
      let q : ℚ := (natOfDigits ip : ℚ) + (natOfDigits fp : ℚ) / ((10 : ℚ) ^ fp.length)
      some (.float (if neg then -q else q), r2.dropWhile Char.isDigit)
  | _ =>
    if ip.isEmpty then none
    else
      let n : Int := (natOfDigits ip : Int)
      some (.int (if neg then -n else n), rest1)

mutual

def parseVal : Nat → Str → Option (PyVal × Str)
  | 0, _ => none
  | fuel + 1, s =>
    match skipWs s with
    | '{' :: r =>
      match parseDictItems fuel r with
      | some (kvs, rest) => some (.dict kvs, rest)
      | none => none
    | '[' :: r =>
      match parseElems fuel ']' r with
      | some (xs, rest) => some (.list xs, rest)
      | none => none
    | '(' :: r =>
      (match skipWs r with
       | ')' :: r2 => some (.tuple [], r2)
       | s2 =>
         match parseVal fuel s2 with
         | some (v, rest) =>
           (match skipWs rest with
            | ')' :: r2 => some (v, r2)
            | ',' :: r2 =>
              match parseElems fuel ')' r2 with
              | some (xs, rest2) => some (.tuple (v :: xs), rest2)
              | none => none
            | _ => none)
         | none => none)
    | '"' :: r =>
      match parseStrBody '"' r with
      | some (str, rest) => some (.str str, rest)
      | none => none
    | '\'' :: r =>
      match parseStrBody '\'' r with
      | some (str, rest) => some (.str str, rest)
      | none => none
    | 'T' :: 'r' :: 'u' :: 'e' :: r => some (.bool true, r)
    | 'F' :: 'a' :: 'l' :: 's' :: 'e' :: r => some (.bool false, r)
    | 'N' :: 'o' :: 'n' :: 'e' :: r => some (.pyNone, r)
    | s1 => parseNumber s1

/-- Comma-separated values up to the closing bracket `close`
(trailing comma allowed, as in Python). -/
def parseElems : Nat → Char → Str → Option (List PyVal × Str)
  | 0, _, _ => none
  | fuel + 1, close, s =>
    match skipWs s with
    | [] => none
    | c :: r =>
      if c = close then some ([], r)
      else
        match parseVal fuel (c :: r) with
        | some (v, rest) =>
          (match skipWs rest with
           | ',' :: r2 =>
             (match parseElems fuel close r2 with
              | some (xs, rest2) => some (v :: xs, rest2)
              | none => none)
           | c2 :: r2 => if c2 = close then some ([v], r2) else none
           | [] => none)
        | none => none

/-- Comma-separated `key : value` pairs up to the closing `}`
(trailing comma allowed, as in Python). -/
def parseDictItems : Nat → Str → Option (List (PyVal × PyVal) × Str)
  | 0, _ => none
  | fuel + 1, s =>
    match skipWs s with
    | [] => none
    | '}' :: r => some ([], r)
    | s1 =>
      match parseVal fuel s1 with
      | some (k, rest) =>
        (match skipWs rest with
         | ':' :: r2 =>
           (match parseVal fuel r2 with
            | some (v, rest2) =>
              (match skipWs rest2 with
               | ',' :: r3 =>
                 (match parseDictItems fuel r3 with
                  | some (kvs, rest3) => some ((k, v) :: kvs, rest3)
                  | none => none)
               | '}' :: r3 => some ([(k, v)], r3)
               | _ => none)
            | none => none)
         | _ => none)
      | none => none

end

/-- Model of `ast.literal_eval`: parse one literal and require only
whitespace to remain. -/
def literal_eval (s : Str) : Option PyVal :=
  match parseVal (2 * s.length + 4) s with
  | some (v, rest) => if skipWs rest = [] then some v else none
  | none => none

/-!
## Boolean-token normalization

`StructuredConfigParser._parse_value` (and `ahlib.settings_import`) run a
chain of ten `str.replace` calls before `ast.literal_eval`:

    value.replace(' true', ' True').replace(' false', ' False')
         .replace(':true', ':True').replace(':false', ':False')
         .replace('[true', '[True').replace('[false', '[False')
         .replace(',true', ',True').replace(',false', ',False')
         .replace('{true', '{True').replace('{false', '{False')

`replaceAll` is Python's `str.replace` (all occurrences, left to right,
non-overlapping).  The pattern argument is split into its head and tail
so that it is syntactically nonempty.
-/

def replaceAllF (p : Char) (ps r : List Char) : Nat → List Char → List Char
  | 0, l => l
  | _ + 1, [] => []
  | fuel + 1, c :: rest =>
    if (p :: ps).isPrefixOf (c :: rest) then
      r ++ replaceAllF p ps r fuel (rest.drop ps.length)
    else c :: replaceAllF p ps r fuel rest

def replaceAll (p : Char) (ps r : List Char) (l : List Char) : List Char :=
  replaceAllF p ps r l.length l

def tLow : Str := ['t', 'r', 'u', 'e']
def tUp : Str := ['T', 'r', 'u', 'e']
def fLow : Str := ['f', 'a', 'l', 's', 'e']
def fUp : Str := ['F', 'a', 'l', 's', 'e']

/-- The replacement chain of `_parse_value` / `settings_import`,
in source order. -/
def normalizeBooleans (s : Str) : Str :=
  let s := replaceAll ' ' tLow (' ' :: tUp) s
  let s := replaceAll ' ' fLow (' ' :: fUp) s
  let s := replaceAll ':' tLow (':' :: tUp) s
  let s := replaceAll ':' fLow (':' :: fUp) s
  let s := replaceAll '[' tLow ('[' :: tUp) s
  let s := replaceAll '[' fLow ('[' :: fUp) s
  let s := replaceAll ',' tLow (',' :: tUp) s
  let s := replaceAll ',' fLow (',' :: fUp) s
  let s := replaceAll '{' tLow ('{' :: tUp) s
  replaceAll '{' fLow ('{' :: fUp) s

/-- The five characters the spec calls "structural positions". -/
def structuralChars : List Char := [' ', ':', ',', '[', '{']

/-- One `str.replace` pass of the chain, named by its structural
character and whether it rewrites `true` (`Bool.true`) or `false`. -/
def applyPass (pa : Char × Bool) (s : Str) : Str :=
  replaceAll pa.1 (if pa.2 then tLow else fLow)
    (pa.1 :: (if pa.2 then tUp else fUp)) s

def applyPasses (ps : List (Char × Bool)) (s : Str) : Str :=
  ps.foldl (fun s pa => applyPass pa s) s

/-- The ten passes of `normalizeBooleans`, in source order. -/
def passes : List (Char × Bool) :=
  [(' ', true), (' ', false), (':', true), (':', false), ('[', true),
   ('[', false), (',', true), (',', false), ('{', true), ('{', false)]

/-- No pass of `ps` can start a match inside the region `reg`: at every
position of `reg`, the remaining region and the pass's pattern disagree
before either ends. -/
abbrev regionSafe (ps : List (Char × Bool)) (reg : Str) : Prop :=
  ∀ pa ∈ ps, ∀ k, k < reg.length →
    (reg.drop k).isPrefixOf (pa.1 :: (if pa.2 then tLow else fLow)) = false ∧
    (pa.1 :: (if pa.2 then tLow else fLow)).isPrefixOf (reg.drop k) = false

/-- Spec-side description of the normalization (C3): scanning left to
right, every occurrence of lowercase `true`/`false` immediately preceded
by a space, `:`, `,`, `[` or `{` is rewritten to `True`/`False`, and
nothing else is changed. -/
def normalizeBooleansSpec : Str → Str
  | [] => []
  | c :: rest =>
    if structuralChars.contains c && tLow.isPrefixOf rest then
      c :: 'T' :: 'r' :: 'u' :: 'e' :: normalizeBooleansSpec (rest.drop 4)
    else if structuralChars.contains c && fLow.isPrefixOf rest then
      c :: 'F' :: 'a' :: 'l' :: 's' :: 'e' :: normalizeBooleansSpec (rest.drop 5)
    else c :: normalizeBooleansSpec rest
termination_by l => l.length
decreasing_by
  · simp [List.length_drop]; omega
  · simp [List.length_drop]; omega
  · simp

/-!
## The typed-value classifier

`TypedValue` is the spec's tagged union.  `parse_value` embeds
`StructuredConfigParser._parse_value`; `settingsClassify` embeds the
per-value classification inlined in the loop body of
`ahlib.settings_import` (which checks only `{...}` values for structured
data, and whose comma branch has no bracket exclusion); `stdClassify`
embeds the same loop body in `Standardfunktionen_aktuell.settings_import`
(no boolean normalization before `ast.literal_eval`).  The `float()`
value is modelled as the exact decimal rational; binary rounding of the
Python `float` is not modelled.
-/

inductive TypedValue where
  | structured (v : PyVal)
  | boolean (b : Bool)
  | int (n : Int)
  | float (q : ℚ)
  | listOfStr (xs : List Str)
  | str (s : Str)

/-- The test `value.startswith("\x7b") and value.endswith("\x7d")` and the two other
bracket pairs, as `_parse_value` tests them. -/
def bracketedAny (v : Str) : Bool :=
  (startswith v ['{'] && endswith v ['}']) ||
  (startswith v ['['] && endswith v [']']) ||
  (startswith v ['('] && endswith v [')'])

/-- The test `value.replace(dot, empty, 1).isdigit()` of the numeric branch. -/
def isNumericStr (v : Str) : Bool := isdigitStr (removeFirstDot v)

/-- Python `float(v)` on a digits-and-one-dot string, as the exact
decimal rational. -/
def pyFloatOfDigits (v : Str) : ℚ :=
  let ip := v.takeWhile (fun c => c ≠ '.')
  let fp := (v.dropWhile (fun c => c ≠ '.')).drop 1
  (natOfDigits ip : ℚ) + (natOfDigits fp : ℚ) / ((10 : ℚ) ^ fp.length)

/-- The bool → numeric → list → string chain of `_parse_value`
(lines 815-829); its list branch excludes values containing
`{`, `[` or `(`. -/
def parseValueTail (v : Str) : TypedValue :=
  if lower v = tLow || lower v = fLow then .boolean (lower v = tLow)
  else if isNumericStr v then
    (if containsChar v '.' then .float (pyFloatOfDigits v) else .int (natOfDigits v : Int))
  else if containsChar v ',' &&
      !(containsChar v '{' || containsChar v '[' || containsChar v '(') then
    .listOfStr (splitCommaStrip v)
  else .str v

/-- Embedding of `StructuredConfigParser._parse_value`. -/
def parse_value (v : Str) : TypedValue :=
  if bracketedAny v then
    match literal_eval (normalizeBooleans v) with
    | some pv => .structured pv
    | none => parseValueTail v
  else parseValueTail v

/-- The bool → numeric → list → string chain of `settings_import`
(both copies, lines 712-722 of `ahlib.py` and 703-714 of
`Standardfunktionen_aktuell.py`); its list branch has no bracket
exclusion. -/
def settingsTail (v : Str) : TypedValue :=
  if lower v = tLow || lower v = fLow then .boolean (lower v = tLow)
  else if isNumericStr v then
    (if containsChar v '.' then .float (pyFloatOfDigits v) else .int (natOfDigits v : Int))
  else if containsChar v ',' then .listOfStr (splitCommaStrip v)
  else .str v

/-!
## INI documents and `configparser` reading

A loaded parser state is an ordered association list of sections, each
an ordered association list of options (option names already lowercased
by `optionxform`).  `readLines` embeds `configparser`'s strict reader
over pre-lexed lines (section headers and `key = value` lines; blank and
comment lines are dropped by the lexer and not modelled): duplicate
sections or options and options before any header raise a parsing error.
Documents with a `DEFAULT` section are outside the model.
-/

abbrev IniDoc := List (Str × List (Str × Str))

inductive IniLine where
  | sectionHead (name : Str)
  | kv (key value : Str)

/-- Append `(k, v)` to the (first) section named `sec`. -/
def addToSection (doc : IniDoc) (sec : Str) (k v : Str) : IniDoc :=
  doc.map (fun s => if s.1 = sec then (s.1, s.2 ++ [(k, v)]) else s)

/-- The `configparser` strict reading loop: `doc` is the accumulated state,
`cur` the current section. -/
def readLines (doc : IniDoc) : Option Str → List IniLine → Except Unit IniDoc
  | _, [] => .ok doc
  | _, .sectionHead s :: rest =>
    if (doc.map Prod.fst).contains s then .error ()   -- DuplicateSectionError
    else readLines (doc ++ [(s, [])]) (some s) rest
  | none, .kv _ _ :: _ => .error ()                   -- MissingSectionHeaderError
  | some sec, .kv k v :: rest =>
    match doc.lookup sec with
    | none => .error ()
    | some items =>
      if (items.map Prod.fst).contains (lower k) then .error ()  -- DuplicateOptionError
      else readLines (addToSection doc sec (lower k) v) (some sec) rest

def readIni (lines : List IniLine) : Except Unit IniDoc := readLines [] none lines

/-- Embedding of `StructuredConfigParser.to_dict`: iterate sections, then items,
applying `_parse_value` to each value. -/
def to_dict (doc : IniDoc) : List (Str × List (Str × TypedValue)) :=
  doc.map (fun s => (s.1, s.2.map (fun kv => (kv.1, parse_value kv.2))))

/-- Embedding of `configparser.get(section, option)` (interpolation off, no DEFAULT
section): `none` models `NoSectionError`/`NoOptionError`. -/
def getOpt (doc : IniDoc) (sec opt : Str) : Option Str :=
  match doc.lookup sec with
  | none => none
  | some items => items.lookup (lower opt)

/-- Embedding of `StructuredConfigParser.get_structured`: `.inl` is a parsed value,
`.inr` the untouched caller-supplied fallback. -/
def get_structured {α : Type} (doc : IniDoc) (sec opt : Str) (fallback : α) :
    TypedValue ⊕ α :=
  match getOpt doc sec opt with
  | some v => .inl (parse_value (strip v))
  | none => .inr fallback

/-!
## The two `settings_import` copies, with their logging

Log output is modelled by `LogEntry`; `warnParse` records which
section/key the warning names (the appended exception text is not
modelled).  `classifyA` is the loop body of `ahlib.settings_import`
(lines 690-722): only `{...}` values are offered to `ast.literal_eval`
(after boolean normalization), a failed structural parse logs one
warning and falls through to `settingsTail`.  `settings_import_ahlib`
folds it over the document exactly as the two nested `for` loops do.

In `Standardfunktionen_aktuell.settings_import` the warning call
`screen_and_log(..., logfile, screen, auto_log=True)` (lines 700-701)
references the names `logfile` and `screen`, which are bound nowhere in
that function or at module level; executing the handler therefore raises
`NameError`.  The outer `except Exception` (line 720) catches it, but
its own `screen_and_log(..., logfile, screen, ...)` call raises the same
`NameError` again before `return None` is reached, so the error escapes
`settings_import` with no log written and no `None` returned.
`stdClassify` returns `.error` on that path, and `settings_import_std`
propagates it with an empty log.
-/

inductive LogEntry where
  | warnParse (sec key : Str)

/-- Whether `classifyA` hits the recoverable structural-parse failure. -/
def structFailA (v : Str) : Bool :=
  startswith v ['{'] && endswith v ['}'] && (literal_eval (normalizeBooleans v)).isNone

def classifyA (sec key : Str) (rawv : Str) : TypedValue × List LogEntry :=
  let v := strip rawv
  if startswith v ['{'] && endswith v ['}'] then
    match literal_eval (normalizeBooleans v) with
    | some pv => (.structured pv, [])
    | none => (settingsTail v, [.warnParse sec key])
  else (settingsTail v, [])

def settings_import_ahlib (cfg : IniDoc) :
    List (Str × List (Str × TypedValue)) × List LogEntry :=
  cfg.foldl
    (fun acc sec =>
      let folded := sec.2.foldl
        (fun a kv =>
          let r := classifyA sec.1 kv.1 kv.2
          (a.1 ++ [(kv.1, r.1)], a.2 ++ r.2))
        ([], [])
      (acc.1 ++ [(sec.1, folded.1)], acc.2 ++ folded.2))
    ([], [])

/-- Loop body of `Standardfunktionen_aktuell.settings_import`: a failed
`ast.literal_eval` (no boolean normalization here) reaches the handler
whose `screen_and_log` call raises `NameError` on the unbound names
`logfile`/`screen`. -/
def stdClassify (rawv : Str) : Except Unit TypedValue :=
  let v := strip rawv
  if startswith v ['{'] && endswith v ['}'] then
    match literal_eval v with
    | some pv => .ok (.structured pv)
    | none => .error ()
  else .ok (settingsTail v)

def stdItems : List (Str × Str) → Except Unit (List (Str × TypedValue))
  | [] => .ok []
  | kv :: rest =>
    match stdClassify kv.2 with
    | .ok tv =>
      match stdItems rest with
      | .ok xs => .ok ((kv.1, tv) :: xs)
      | .error e => .error e
    | .error e => .error e

def stdSections : IniDoc → Except Unit (List (Str × List (Str × TypedValue)))
  | [] => .ok []
  | sec :: rest =>
    match stdItems sec.2 with
    | .ok items =>
      match stdSections rest with
      | .ok xs => .ok ((sec.1, items) :: xs)
      | .error e => .error e
    | .error e => .error e

def settings_import_std (cfg : IniDoc) :
    Except Unit (List (Str × List (Str × TypedValue))) × List LogEntry :=
  match stdSections cfg with
  | .ok s => (.ok s, [])
  | .error e => (.error e, [])

/-!
## Document loaders (C6)

`FileSys` abstracts the filesystem facts the loaders consult:
`os.path.isfile`, `Path.exists`, and the successfully read parser state
of a regular file.  `configparser.read` opens each name and silently
skips it on `OSError` (so reading a path that exists but is not a
regular file leaves the parser empty); `readConfig` embeds that.
-/

structure FileSys where
  isFile : Str → Bool
  pathExists : Str → Bool
  content : Str → IniDoc
  file_is_path : ∀ p, isFile p = true → pathExists p = true

/-- Embedding of `config.read(file_name)`: OSError on open is swallowed. -/
def readConfig (fs : FileSys) (p : Str) : IniDoc :=
  if fs.isFile p then fs.content p else []

/-- Embedding of `load_structured_config` (ahlib.py lines 901-920); second component
is the `screen_and_log` output. -/
def load_structured_config (fs : FileSys) (name : Str) : Option IniDoc × List Str :=
  if fs.isFile name then
    (some (readConfig fs name),
     ["Info: Konfigurationsdatei '".toList ++ name ++ "' erfolgreich geladen.".toList])
  else
    (none,
     ["ERROR: Fehler beim Laden der Konfiguration: Die Datei '".toList ++ name ++
      "' wurde nicht gefunden.".toList])

/-- Embedding of `load_structured_config_with_validation` (lines 984-998):
`mkErr` is the caller-injected error class; the function contains no
logging call, so its log output is always empty. -/
def load_structured_config_with_validation {ε : Type} (mkErr : Str → ε)
    (fs : FileSys) (name : Str) : Except ε IniDoc × List Str :=
  if fs.pathExists name then (.ok (readConfig fs name), [])
  else (.error (mkErr ("Configuration file not found: ".toList ++ name)), [])

/-!
## `screen_and_log` (lines 577-584) and `files_availability_check`
(lines 293-325)

`screen_and_log` is modelled by what it prints to the screen; `now` and
`caller` stand for the timestamp and the inspected caller name.  The
logfile append is outside the claims.  `files_availability_check` takes
the `os.path.isfile` and `is_file_open_windows` oracles; its `file_list`
elements are typed as strings (the non-string branch is unreachable
then).
-/

def formatMessage (now caller msg : Str) : Str :=
  now ++ " - ".toList ++ msg ++ " (Caller Funktion: ".toList ++ caller ++ [')']

/-- The test `message.strip().upper().startswith(("ERROR", "WARNING"))`. -/
def isErrWarn (msg : Str) : Bool :=
  startswith (upper (strip msg)) "ERROR".toList ||
  startswith (upper (strip msg)) "WARNING".toList

/-- The lines `screen_and_log` prints to the screen. -/
def screen_and_log (now caller msg : Str) (screen : Bool) : List Str :=
  if isErrWarn msg then [formatMessage now caller msg]
  else if screen then [msg] else []

def natToStr (n : Nat) : Str := (Nat.toDigits 10 n)

def files_availability_check (isFile isOpen : Str → Bool) (files : List Str) :
    Bool × List Str :=
  match files with
  | [] => (true, ["Info: Keine Dateien zur Prüfung angegeben.".toList])
  | _ =>
    let st := files.foldl
      (fun (st : Bool × Nat × List Str) f =>
        if !isFile f then
          (false, st.2.1, st.2.2 ++ ["ERROR: Datei '".toList ++ f ++ "' nicht gefunden.".toList])
        else if isOpen f then
          (false, st.2.1, st.2.2 ++ ["ERROR: Datei '".toList ++ f ++ "' ist gesperrt.".toList])
        else
          (st.1, st.2.1 + 1, st.2.2 ++ ["Info: Datei '".toList ++ f ++ "' ist verfügbar.".toList]))
      (true, 0, [])
    (st.1, st.2.2 ++
      ["Info: Verfügbarkeitscheck abgeschlossen: ".toList ++ natToStr st.2.1 ++ ['/'] ++
       natToStr files.length ++ " Dateien verfügbar.".toList])

/-!
## Spec-side descriptions used by the claims
-/

/-- The value `ahlib.settings_import` stores for one raw value
(the classification part of `classifyA`). -/
def importValueA (rawv : Str) : TypedValue :=
  let v := strip rawv
  if startswith v ['{'] && endswith v ['}'] then
    match literal_eval (normalizeBooleans v) with
    | some pv => .structured pv
    | none => settingsTail v
  else settingsTail v

/-- Spec-side log of `ahlib.settings_import`: exactly one warning per
recoverable structural-parse failure, naming its section and key, in
document order. -/
def warnLogsSpec (cfg : IniDoc) : List LogEntry :=
  cfg.flatMap (fun sec =>
    sec.2.filterMap (fun kv =>
      if structFailA (strip kv.2) then some (.warnParse sec.1 kv.1) else none))

/-- Spec-side result of `ahlib.settings_import`. -/
def importSpec (cfg : IniDoc) : List (Str × List (Str × TypedValue)) :=
  cfg.map (fun sec => (sec.1, sec.2.map (fun kv => (kv.1, importValueA kv.2))))

/-- The section headers of a lexed INI file, in textual order. -/
def sectionNamesOf (lines : List IniLine) : List Str :=
  lines.filterMap (fun l => match l with
    | .sectionHead s => some s
    | .kv _ _ => none)

/-- The (lowercased) keys textually appearing under section `s`, scanning
with `cur` as the section currently open. -/
def keysUnder (cur : Option Str) (s : Str) : List IniLine → List Str
  | [] => []
  | .sectionHead s' :: rest => keysUnder (some s') s rest
  | .kv k _ :: rest =>
    if cur = some s then lower k :: keysUnder cur s rest
    else keysUnder cur s rest

/-- Keys of one section of a (typed) nested dictionary, in stored order. -/
def dictKeys (d : List (Str × List (Str × TypedValue))) (s : Str) : List Str :=
  match d.lookup s with
  | some items => items.map Prod.fst
  | none => []

/-- Keys of one section of a raw document, in stored order. -/
def docKeys (doc : IniDoc) (s : Str) : List Str :=
  match doc.lookup s with
  | some items => items.map Prod.fst
  | none => []

/-!
## Concrete fixtures for witnesses and counterexamples
-/

/-- A filesystem on which `"cfg"` exists but is not a regular file
(e.g. a directory). -/
def fsDirOnly : FileSys where
  isFile := fun _ => false
  pathExists := fun p => p == "cfg".toList
  content := fun _ => []
  file_is_path := by intro p h; simp at h

/-- A filesystem with no paths at all. -/
def fsEmpty : FileSys where
  isFile := fun _ => false
  pathExists := fun _ => false
  content := fun _ => []
  file_is_path := by intro p h; simp at h

/-- Lexed lines of a two-section INI file (section `B` before `A`,
uppercase key `X` first). -/
def linesEx : List IniLine :=
  [.sectionHead "B".toList, .kv "X".toList "1".toList,
   .sectionHead "A".toList, .kv "y".toList "2".toList, .kv "x".toList "3".toList]

/-- The parser state `readIni linesEx` produces. -/
def docEx : IniDoc :=
  [("B".toList, [("x".toList, "1".toList)]),
   ("A".toList, [("y".toList, "2".toList), ("x".toList, "3".toList)])]

/-!
## Helper lemmas
-/

theorem replaceAllF_fuel (p : Char) (ps r : List Char) :
    ∀ (n m : Nat) (l : List Char), l.length ≤ n → l.length ≤ m →
      replaceAllF p ps r n l = replaceAllF p ps r m l := by
  intro n
  induction n with
  | zero =>
    intro m l hn _
    have : l = [] := List.eq_nil_of_length_eq_zero (Nat.le_zero.mp hn)
    subst this
    cases m <;> rfl
  | succ n ih =>
    intro m l hn hm
    cases l with
    | nil => cases m <;> rfl
    | cons c rest =>
      cases m with
      | zero => simp at hm
      | succ m =>
        simp only [replaceAllF]
        by_cases hp : (p :: ps).isPrefixOf (c :: rest) = true
        · rw [if_pos hp, if_pos hp]
          have hd : (rest.drop ps.length).length ≤ n := by
            simp only [List.length_drop]
            simp only [List.length_cons] at hn
            omega
          have hd2 : (rest.drop ps.length).length ≤ m := by
            simp only [List.length_drop]
            simp only [List.length_cons] at hm
            omega
          rw [ih m _ hd hd2]
        · rw [if_neg hp, if_neg hp]
          have h1 : rest.length ≤ n := by simp at hn; omega
          have h2 : rest.length ≤ m := by simp at hm; omega
          rw [ih m rest h1 h2]

theorem replaceAll_nil (p : Char) (ps r : List Char) : replaceAll p ps r [] = [] := rfl

/-- The defining equation of Python's `str.replace` step on a cons cell. -/
theorem replaceAll_cons (p : Char) (ps r : List Char) (c : Char) (rest : List Char) :
    replaceAll p ps r (c :: rest) =
      (if (p :: ps).isPrefixOf (c :: rest) then
        r ++ replaceAll p ps r (rest.drop ps.length)
      else c :: replaceAll p ps r rest) := by
  show replaceAllF p ps r (rest.length + 1) (c :: rest) = _
  simp only [replaceAllF]
  by_cases hp : (p :: ps).isPrefixOf (c :: rest) = true
  · rw [if_pos hp, if_pos hp]
    rw [replaceAllF_fuel p ps r rest.length (rest.drop ps.length).length _
      (by simp [List.length_drop]) (Nat.le_refl _)]
    rfl
  · rw [if_neg hp, if_neg hp]
    rfl

theorem all_isDigit_false_of_mem {v : Str} {c : Char} (hc : c ∈ v)
    (hd : c.isDigit = false) : v.all Char.isDigit = false := by
  cases h : v.all Char.isDigit
  · rfl
  · rw [List.all_eq_true] at h
    exact absurd (h c hc) (by simp [hd])

theorem mem_removeFirstDot {v : Str} {c : Char} (hne : c ≠ '.') (hc : c ∈ v) :
    c ∈ removeFirstDot v := by
  induction v with
  | nil => cases hc
  | cons a rest ih =>
    by_cases ha : a = '.'
    · subst ha
      simp only [removeFirstDot, if_pos rfl]
      rcases List.mem_cons.mp hc with h | h
      · exact absurd h hne
      · exact h
    · simp only [removeFirstDot, if_neg ha]
      rcases List.mem_cons.mp hc with h | h
      · exact h ▸ List.mem_cons_self _ _
      · exact List.mem_cons_of_mem _ (ih h)

theorem dot_mem_removeFirstDot_of_two {v : Str} (h : 2 ≤ v.count '.') :
    '.' ∈ removeFirstDot v := by
  induction v with
  | nil => simp [List.count_nil] at h
  | cons a rest ih =>
    rw [List.count_cons] at h
    by_cases ha : a = '.'
    · subst ha
      simp only [removeFirstDot, if_pos rfl]
      simp at h
      exact h
    · have hba : (a == '.') = false := beq_eq_false_iff_ne.mpr ha
      simp only [hba, if_false, Nat.add_zero] at h
      simp only [removeFirstDot, if_neg ha]
      exact List.mem_cons_of_mem _ (ih h)

theorem isNumericStr_false_of_mem_nondigit {v : Str} {c : Char} (hne : c ≠ '.')
    (hm : c ∈ v) (hd : c.isDigit = false) : isNumericStr v = false := by
  have : (removeFirstDot v).all Char.isDigit = false :=
    all_isDigit_false_of_mem (mem_removeFirstDot hne hm) hd
  simp [isNumericStr, isdigitStr, this]

end Ahlib

namespace Ahlib

/-!
## C9 — `screen_and_log` screen policy
-/

/-- C9: a message whose stripped, uppercased form starts with `ERROR` or
`WARNING` is printed to the screen as the timestamped formatted message
regardless of the `screen` flag; any other message is printed (verbatim)
iff `screen` is true. -/
theorem screen_and_log_screen_policy (now caller msg : Str) (screen : Bool) :
    (isErrWarn msg = true →
      screen_and_log now caller msg screen = [formatMessage now caller msg]) ∧
    (isErrWarn msg = false →
      screen_and_log now caller msg screen = if screen then [msg] else []) := by
  constructor <;> intro h <;> simp [screen_and_log, h]

theorem screen_and_log_screen_policy_witness :
    (isErrWarn "  error: disk full".toList = true ∧
      screen_and_log "2026-10-12 00:00:00".toList "main".toList
        "  error: disk full".toList false =
        [formatMessage "2026-10-12 00:00:00".toList "main".toList
          "  error: disk full".toList]) ∧
    (isErrWarn "hello".toList = false ∧
      screen_and_log "2026-10-12 00:00:00".toList "main".toList
        "hello".toList false = []) :=
  ⟨⟨by decide,
    (screen_and_log_screen_policy "2026-10-12 00:00:00".toList "main".toList
      "  error: disk full".toList false).1 (by decide)⟩,
   ⟨by decide,
    (screen_and_log_screen_policy "2026-10-12 00:00:00".toList "main".toList
      "hello".toList false).2 (by decide)⟩⟩

/-!
## C10 — `files_availability_check` on the empty list
-/

/-- C10: for the empty file list, `files_availability_check` returns
`True` and logs a single informational message (prefixed `Info:`, not an
`ERROR`). -/
theorem files_availability_check_empty (isFile isOpen : Str → Bool) :
    files_availability_check isFile isOpen [] =
      (true, ["Info: Keine Dateien zur Prüfung angegeben.".toList]) ∧
    startswith "Info: Keine Dateien zur Prüfung angegeben.".toList "Info:".toList = true ∧
    startswith "Info: Keine Dateien zur Prüfung angegeben.".toList "ERROR".toList = false :=
  ⟨rfl, by decide, by decide⟩

/-!
## C7 — `get_structured` fallback policy
-/

/-- C7: `get_structured` returns the caller's fallback untouched when the
section is absent or the (lowercased) option is absent in the section,
and otherwise strips the stored raw string and classifies it with
`_parse_value`. -/
theorem get_structured_fallback_policy {α : Type} (doc : IniDoc) (sec opt : Str)
    (fb : α) :
    (doc.lookup sec = none → get_structured doc sec opt fb = .inr fb) ∧
    (∀ items, doc.lookup sec = some items → items.lookup (lower opt) = none →
      get_structured doc sec opt fb = .inr fb) ∧
    (∀ items v, doc.lookup sec = some items → items.lookup (lower opt) = some v →
      get_structured doc sec opt fb = .inl (parse_value (strip v))) := by
  refine ⟨fun h => ?_, fun items h1 h2 => ?_, fun items v h1 h2 => ?_⟩
  · simp [get_structured, getOpt, h]
  · simp [get_structured, getOpt, h1, h2]
  · simp [get_structured, getOpt, h1, h2]

theorem get_structured_fallback_policy_witness :
    get_structured [("a".toList, [("k".toList, "42".toList)])]
      "b".toList "k".toList (0 : Nat) = .inr 0 ∧
    get_structured [("a".toList, [("k".toList, "42".toList)])]
      "a".toList "z".toList (0 : Nat) = .inr 0 ∧
    get_structured [("a".toList, [("k".toList, "42".toList)])]
      "a".toList "K".toList (0 : Nat) = .inl (.int 42) :=
  ⟨(get_structured_fallback_policy _ _ _ _).1 rfl,
   (get_structured_fallback_policy _ _ _ _).2.1 _ rfl rfl,
   ((get_structured_fallback_policy [("a".toList, [("k".toList, "42".toList)])]
      "a".toList "K".toList (0 : Nat)).2.2 _ "42".toList rfl rfl).trans (by rfl)⟩

/-!
## C6 — missing-file behavior of the two loaders

The claim quantifies over every path that "does not reference an
existing regular file".  For a path that exists but is not a regular
file (a directory, say), `load_structured_config_with_validation`
raises nothing: `Path.exists()` succeeds and `configparser.read`
swallows the `OSError`, so the caller receives an empty parser.  The
claim holds as stated only for non-existent paths.
-/

/-- C6 counterexample: on a filesystem where `"cfg"` exists but is not a
regular file, the validation-convention loader returns an empty document
and raises no error, although the path does not reference an existing
regular file. -/
theorem load_validation_nonfile_counterexample :
    fsDirOnly.isFile "cfg".toList = false ∧
    fsDirOnly.pathExists "cfg".toList = true ∧
    load_structured_config_with_validation (fun m => m) fsDirOnly "cfg".toList =
      (.ok [], []) ∧
    ¬ ∃ e, (load_structured_config_with_validation (fun m => m) fsDirOnly
      "cfg".toList).1 = .error e := by
  refine ⟨rfl, by decide, rfl, ?_⟩
  rintro ⟨e, he⟩
  rw [show (load_structured_config_with_validation (fun m => m) fsDirOnly
    "cfg".toList).1 = Except.ok [] from rfl] at he
  exact Except.noConfusion he

/-- C6 (amended): for every path that does not exist at all, the simple
convention returns `None` after logging the cause, and the validation
convention raises the caller-injected error with no logging side
effect. -/
theorem load_config_missing_path {ε : Type} (mkErr : Str → ε) (fs : FileSys)
    (name : Str) (h : fs.pathExists name = false) :
    load_structured_config fs name =
      (none, ["ERROR: Fehler beim Laden der Konfiguration: Die Datei '".toList ++
              name ++ "' wurde nicht gefunden.".toList]) ∧
    load_structured_config_with_validation mkErr fs name =
      (.error (mkErr ("Configuration file not found: ".toList ++ name)), []) := by
  have hf : fs.isFile name = false := by
    cases hv : fs.isFile name
    · rfl
    · exact absurd (fs.file_is_path name hv) (by simp [h])
  exact ⟨by simp [load_structured_config, hf],
         by simp [load_structured_config_with_validation, h]⟩

theorem load_config_missing_path_witness :
    fsEmpty.pathExists "missing.ini".toList = false ∧
    (load_structured_config fsEmpty "missing.ini".toList =
      (none, ["ERROR: Fehler beim Laden der Konfiguration: Die Datei '".toList ++
              "missing.ini".toList ++ "' wurde nicht gefunden.".toList]) ∧
     load_structured_config_with_validation (fun m => m) fsEmpty "missing.ini".toList =
      (.error ("Configuration file not found: ".toList ++ "missing.ini".toList), [])) :=
  ⟨rfl, load_config_missing_path (fun m => m) fsEmpty "missing.ini".toList rfl⟩

/-- A raw value reaches the bool/numeric/list/string chain of
`_parse_value` iff it is not bracketed or its structural parse failed. -/
theorem parse_value_tail_eq (v : Str)
    (hs : bracketedAny v = false ∨ literal_eval (normalizeBooleans v) = none) :
    parse_value v = parseValueTail v := by
  rcases hs with h | h
  · simp [parse_value, h]
  · cases hb : bracketedAny v
    · simp [parse_value, hb]
    · simp [parse_value, hb, h]

/-!
## C4 — the numeric check
-/

/-- C4: a raw value reaching the numeric check is classified `Float` (the
original contains `.`) or `Integer` (otherwise) exactly when removing the
first `.` leaves a nonempty all-digit string; two or more dots, a leading
`-`, or an `e`/`E` (scientific notation) are never numeric, and such
values fall through to the list/string branches. -/
theorem numeric_check_classification :
    (∀ v : Str, (bracketedAny v = false ∨ literal_eval (normalizeBooleans v) = none) →
      (lower v = tLow || lower v = fLow) = false →
      isNumericStr v = true →
      parse_value v = (if containsChar v '.' then .float (pyFloatOfDigits v)
                       else .int (natOfDigits v : Int))) ∧
    (∀ v : Str, 2 ≤ v.count '.' → isNumericStr v = false) ∧
    (∀ rest : Str, isNumericStr ('-' :: rest) = false) ∧
    (∀ v : Str, 'e' ∈ v ∨ 'E' ∈ v → isNumericStr v = false) ∧
    (∀ v : Str, (bracketedAny v = false ∨ literal_eval (normalizeBooleans v) = none) →
      (lower v = tLow || lower v = fLow) = false →
      isNumericStr v = false →
      (∃ xs, parse_value v = .listOfStr xs) ∨ parse_value v = .str v) := by
  refine ⟨fun v hs hb hn => ?_, fun v h => ?_, fun rest => ?_, fun v h => ?_,
    fun v hs hb hn => ?_⟩
  · rw [parse_value_tail_eq v hs]
    simp [parseValueTail, hb, hn]
  · have hm := dot_mem_removeFirstDot_of_two h
    have hall : (removeFirstDot v).all Char.isDigit = false :=
      all_isDigit_false_of_mem hm (by decide)
    simp [isNumericStr, isdigitStr, hall]
  · have h1 : removeFirstDot ('-' :: rest) = '-' :: removeFirstDot rest := by
      simp [removeFirstDot]
    simp [isNumericStr, h1, isdigitStr, List.all_cons,
      (by decide : ('-'.isDigit) = false)]
  · rcases h with h | h
    · exact isNumericStr_false_of_mem_nondigit (by decide) h (by decide)
    · exact isNumericStr_false_of_mem_nondigit (by decide) h (by decide)
  · rw [parse_value_tail_eq v hs]
    cases hc : (containsChar v ',' &&
        !(containsChar v '{' || containsChar v '[' || containsChar v '(')) with
    | true =>
      obtain ⟨h1, ⟨h2, h3⟩, h4⟩ : containsChar v ',' = true ∧
          (containsChar v '{' = false ∧ containsChar v '[' = false) ∧
          containsChar v '(' = false := by simpa using hc
      exact Or.inl ⟨splitCommaStrip v, by simp [parseValueTail, hb, hn, h1, h2, h3, h4]⟩
    | false =>
      refine Or.inr ?_
      simp [parseValueTail, hb, hn]
      intro h1 h2 h3
      simp [h1, h2, h3] at hc
      exact hc

theorem numeric_check_classification_witness :
    (bracketedAny "3.14".toList = false ∧
      parse_value "3.14".toList = .float ((157 : ℚ)/50)) ∧
    parse_value "42".toList = .int 42 ∧
    isNumericStr "1.2.3".toList = false ∧
    isNumericStr "-5".toList = false ∧
    isNumericStr "1e5".toList = false ∧
    ((∃ xs, parse_value "1.2.3".toList = .listOfStr xs) ∨
      parse_value "1.2.3".toList = .str "1.2.3".toList) :=
  ⟨⟨by decide, (numeric_check_classification.1 "3.14".toList (Or.inl rfl)
      (by decide) (by decide)).trans (by
        rw [if_pos (by decide : containsChar "3.14".toList '.' = true)]
        refine congrArg TypedValue.float ?_
        show (natOfDigits ['3'] : ℚ) +
          (natOfDigits ['1', '4'] : ℚ) / (10 : ℚ) ^ (['1', '4'].length) = _
        rw [show natOfDigits ['3'] = 3 from rfl, show natOfDigits ['1', '4'] = 14 from rfl]
        norm_num)⟩,
   (numeric_check_classification.1 "42".toList (Or.inl rfl)
      (by decide) (by decide)).trans (by rfl),
   numeric_check_classification.2.1 "1.2.3".toList (by decide),
   numeric_check_classification.2.2.1 "5".toList,
   numeric_check_classification.2.2.2.1 "1e5".toList (Or.inl (by decide)),
   numeric_check_classification.2.2.2.2 "1.2.3".toList (Or.inl rfl)
     (by decide) (by decide)⟩

/-!
## C5 — the enhanced list check
-/

/-- C5: in `_parse_value`, a raw value reaching the list check that
contains a comma and none of `{`, `[`, `(` is split on `,` with each
piece whitespace-trimmed, yielding a list of plain (untyped) strings;
in particular `10,20,30` becomes `["10","20","30"]` and, in a document,
`[Export] enabled/widths` classify as a boolean and a string list. -/
theorem list_check_enhanced :
    (∀ v : Str, (bracketedAny v = false ∨ literal_eval (normalizeBooleans v) = none) →
      (lower v = tLow || lower v = fLow) = false →
      isNumericStr v = false →
      containsChar v ',' = true →
      (containsChar v '{' || containsChar v '[' || containsChar v '(') = false →
      parse_value v = .listOfStr (splitCommaStrip v)) ∧
    parse_value "10,20,30".toList =
      .listOfStr ["10".toList, "20".toList, "30".toList] ∧
    to_dict [("Export".toList, [("enabled".toList, "true".toList),
                                ("widths".toList, "10,20,30".toList)])] =
      [("Export".toList,
        [("enabled".toList, .boolean true),
         ("widths".toList, .listOfStr ["10".toList, "20".toList, "30".toList])])] := by
  refine ⟨fun v hs hb hn hc hbr => ?_, by rfl, by rfl⟩
  rw [parse_value_tail_eq v hs]
  simp [parseValueTail, hb, hn, hc, hbr]

theorem list_check_enhanced_witness :
    containsChar "10,20,30".toList ',' = true ∧
    parse_value "10,20,30".toList = .listOfStr (splitCommaStrip "10,20,30".toList) :=
  ⟨by decide,
   list_check_enhanced.1 "10,20,30".toList (Or.inl rfl) (by decide) (by decide)
     (by decide) (by decide)⟩

/-!
## C1 — structured literals come first

`_parse_value` tries the structural parse for all three bracket pairs,
but both `settings_import` copies test only `{...}`; a `[...]` or
`(...)` value never reaches `ast.literal_eval` there.
-/

/-- C1 counterexample: the raw value `[1, 2]` is a bracketed value whose
structural parse succeeds, yet `ahlib.settings_import` does not return a
structured literal for it — it comma-splits it into the string list
`["[1", "2]"]`. -/
theorem settings_import_bracket_counterexample :
    bracketedAny "[1, 2]".toList = true ∧
    literal_eval (normalizeBooleans "[1, 2]".toList) =
      some (.list [.int 1, .int 2]) ∧
    settings_import_ahlib [("S".toList, [("k".toList, "[1, 2]".toList)])] =
      ([("S".toList, [("k".toList, .listOfStr ["[1".toList, "2]".toList])])], []) :=
  ⟨by decide, by rfl, by rfl⟩

/-- C1 (amended): in `_parse_value` every `{...}`/`[...]`/`(...)` value
whose structural parse succeeds is returned as that structured composite
with no later checks applied; in `settings_import` the same holds for
`{...}` values only, and any other value goes straight to the later
checks. -/
theorem structured_literal_precedence :
    (∀ (v : Str) (pv : PyVal), bracketedAny v = true →
      literal_eval (normalizeBooleans v) = some pv →
      parse_value v = .structured pv) ∧
    (∀ (s k v : Str) (pv : PyVal),
      (startswith (strip v) ['{'] && endswith (strip v) ['}']) = true →
      literal_eval (normalizeBooleans (strip v)) = some pv →
      classifyA s k v = (.structured pv, [])) ∧
    (∀ (s k v : Str),
      (startswith (strip v) ['{'] && endswith (strip v) ['}']) = false →
      classifyA s k v = (settingsTail (strip v), [])) := by
  refine ⟨fun v pv hb hp => ?_, fun s k v pv hb hp => ?_, fun s k v hb => ?_⟩
  · simp [parse_value, hb, hp]
  · simp [classifyA, hb, hp]
  · simp [classifyA, hb]

theorem structured_literal_precedence_witness :
    parse_value "[1, 2]".toList = .structured (.list [.int 1, .int 2]) ∧
    classifyA "S".toList "k".toList "\x7b\"on\": true\x7d".toList =
      (.structured (.dict [(.str "on".toList, .bool true)]), []) ∧
    classifyA "S".toList "k".toList "[1, 2]".toList =
      (settingsTail "[1, 2]".toList, []) :=
  ⟨structured_literal_precedence.1 "[1, 2]".toList _ (by decide) rfl,
   structured_literal_precedence.2.1 "S".toList "k".toList "\x7b\"on\": true\x7d".toList _
     (by decide) rfl,
   structured_literal_precedence.2.2 "S".toList "k".toList "[1, 2]".toList (by decide)⟩

/-!
## C2 — recovery of structural-parse failures
-/

/-- Closed form of `classifyA`: the stored value plus the warning log
(one `warnParse` exactly when the structural parse failed). -/
theorem classifyA_eq (s k rawv : Str) :
    classifyA s k rawv =
      (importValueA rawv,
       if structFailA (strip rawv) then [LogEntry.warnParse s k] else []) := by
  unfold classifyA importValueA structFailA
  by_cases hb : (startswith (strip rawv) ['{'] && endswith (strip rawv) ['}']) = true
  · cases he : literal_eval (normalizeBooleans (strip rawv)) with
    | some pv => simp [hb, he]
    | none => simp [hb, he]
  · simp only [Bool.not_eq_true] at hb
    simp [hb]

theorem settings_inner_eq (secName : Str) :
    ∀ (items : List (Str × Str)) (acc : List (Str × TypedValue) × List LogEntry),
      items.foldl
        (fun a kv =>
          let r := classifyA secName kv.1 kv.2
          (a.1 ++ [(kv.1, r.1)], a.2 ++ r.2)) acc =
      (acc.1 ++ items.map (fun kv => (kv.1, importValueA kv.2)),
       acc.2 ++ items.filterMap (fun kv =>
         if structFailA (strip kv.2) then some (.warnParse secName kv.1) else none)) := by
  intro items
  induction items with
  | nil => intro acc; simp
  | cons kv rest ih =>
    intro acc
    rw [List.foldl_cons, ih]
    rw [classifyA_eq]
    by_cases hf : structFailA (strip kv.2) = true
    · simp [hf]
    · simp only [Bool.not_eq_true] at hf
      simp [hf]

/-- Closed form of `ahlib.settings_import`: it always returns a settings
dictionary (never aborts), and its log is exactly one warning naming the
section and key of each recoverable structural-parse failure, in
document order. -/
theorem settings_import_ahlib_eq (cfg : IniDoc) :
    settings_import_ahlib cfg = (importSpec cfg, warnLogsSpec cfg) := by
  suffices h : ∀ (acc : List (Str × List (Str × TypedValue)) × List LogEntry),
      cfg.foldl
        (fun acc sec =>
          let folded := sec.2.foldl
            (fun a kv =>
              let r := classifyA sec.1 kv.1 kv.2
              (a.1 ++ [(kv.1, r.1)], a.2 ++ r.2))
            ([], [])
          (acc.1 ++ [(sec.1, folded.1)], acc.2 ++ folded.2)) acc =
      (acc.1 ++ importSpec cfg, acc.2 ++ warnLogsSpec cfg) by
    have := h ([], [])
    simpa [settings_import_ahlib] using this
  induction cfg with
  | nil => intro acc; simp [importSpec, warnLogsSpec]
  | cons sec rest ih =>
    intro acc
    rw [List.foldl_cons, settings_inner_eq sec.1 sec.2 ([], []), ih]
    simp [importSpec, warnLogsSpec]

theorem stdItems_error_of_mem :
    ∀ (items : List (Str × Str)) (kv : Str × Str), kv ∈ items →
      stdClassify kv.2 = .error () → stdItems items = .error () := by
  intro items
  induction items with
  | nil => intro kv h; cases h
  | cons x rest ih =>
    intro kv hm he
    rcases List.mem_cons.mp hm with h | h
    · subst h
      simp [stdItems, he]
    · cases hx : stdClassify x.2 with
      | error e => cases e; simp [stdItems, hx]
      | ok tv => simp [stdItems, hx, ih kv h he]

theorem stdSections_error_of_mem :
    ∀ (cfg : IniDoc) (sec : Str × List (Str × Str)), sec ∈ cfg →
      stdItems sec.2 = .error () → stdSections cfg = .error () := by
  intro cfg
  induction cfg with
  | nil => intro sec h; cases h
  | cons x rest ih =>
    intro sec hm he
    rcases List.mem_cons.mp hm with h | h
    · subst h
      simp [stdSections, he]
    · cases hx : stdItems x.2 with
      | error e => cases e; simp [stdSections, hx]
      | ok items => simp [stdSections, hx, ih sec h he]

/-- C2 counterexample: in `Standardfunktionen_aktuell.settings_import`, a
single value whose structural parse fails aborts the whole document load
with a propagated error and produces no warning log at all — because the
warning call itself references the unbound names `logfile`/`screen`. -/
theorem std_parse_failure_abort_counterexample :
    stdClassify "\x7bnot valid\x7d".toList = .error () ∧
    settings_import_std [("S".toList, [("k".toList, "\x7bnot valid\x7d".toList)])] =
      (.error (), []) :=
  ⟨rfl, rfl⟩

/-- C2 (amended): in `ahlib.settings_import` every structural-parse
failure logs exactly one warning identifying the offending section and
key, the value falls through to the later classification checks, and the
load never aborts (the import is total, with log exactly `warnLogsSpec`);
`StructuredConfigParser._parse_value` falls through silently (it is pure
and performs no log call); in the `Standardfunktionen_aktuell` variant a
single structural-parse failure propagates an error out of the whole
document load, with no log. -/
theorem parse_failure_recovery_policy :
    (∀ cfg : IniDoc, settings_import_ahlib cfg = (importSpec cfg, warnLogsSpec cfg)) ∧
    (∀ s k v : Str, structFailA (strip v) = true →
      classifyA s k v = (settingsTail (strip v), [.warnParse s k])) ∧
    (∀ v : Str, bracketedAny v = true → literal_eval (normalizeBooleans v) = none →
      parse_value v = parseValueTail v) ∧
    (∀ (cfg : IniDoc) (sec : Str × List (Str × Str)) (kv : Str × Str),
      sec ∈ cfg → kv ∈ sec.2 → stdClassify kv.2 = .error () →
      settings_import_std cfg = (.error (), [])) := by
  refine ⟨settings_import_ahlib_eq, fun s k v hf => ?_, fun v hb hn => ?_,
    fun cfg sec kv hs hk he => ?_⟩
  · rw [classifyA_eq, if_pos hf]
    obtain ⟨hbr1, hbr2, hno⟩ : startswith (strip v) ['{'] = true ∧
        endswith (strip v) ['}'] = true ∧
        literal_eval (normalizeBooleans (strip v)) = none := by
      simpa [structFailA, Bool.and_assoc] using hf
    simp [importValueA, hbr1, hbr2, hno]
  · exact parse_value_tail_eq v (Or.inr hn)
  · rw [settings_import_std,
      stdSections_error_of_mem cfg sec hs (stdItems_error_of_mem sec.2 kv hk he)]

theorem parse_failure_recovery_policy_witness :
    settings_import_ahlib
        [("S".toList, [("a".toList, "\x7boops\x7d".toList), ("b".toList, "7".toList)])] =
      ([("S".toList, [("a".toList, .str "\x7boops\x7d".toList), ("b".toList, .int 7)])],
       [.warnParse "S".toList "a".toList]) ∧
    structFailA (strip "\x7boops\x7d".toList) = true ∧
    classifyA "S".toList "k".toList "\x7boops\x7d".toList =
      (settingsTail (strip "\x7boops\x7d".toList), [.warnParse "S".toList "k".toList]) ∧
    (bracketedAny "[1 2]".toList = true ∧
      parse_value "[1 2]".toList = parseValueTail "[1 2]".toList) ∧
    settings_import_std [("S".toList, [("k".toList, "\x7boops\x7d".toList)])] =
      (.error (), []) :=
  ⟨(parse_failure_recovery_policy.1 _).trans (by rfl),
   by rfl,
   parse_failure_recovery_policy.2.1 "S".toList "k".toList "\x7boops\x7d".toList (by rfl),
   ⟨by decide, parse_failure_recovery_policy.2.2.1 "[1 2]".toList (by decide) (by rfl)⟩,
   parse_failure_recovery_policy.2.2.2
     [("S".toList, [("k".toList, "\x7boops\x7d".toList)])]
     ("S".toList, [("k".toList, "\x7boops\x7d".toList)])
     ("k".toList, "\x7boops\x7d".toList)
     (List.mem_singleton.mpr rfl) (List.mem_singleton.mpr rfl) (by rfl)⟩

/-!
## C3 — the boolean-token normalization

Infrastructure relating the ten sequential `str.replace` passes of
`normalizeBooleans` to the one-pass positional rewrite
`normalizeBooleansSpec`.
-/

theorem replaceAll_cons_nomatch (p : Char) (ps r : List Char) (c : Char) (l : List Char)
    (h : (p :: ps).isPrefixOf (c :: l) = false) :
    replaceAll p ps r (c :: l) = c :: replaceAll p ps r l := by
  rw [replaceAll_cons, if_neg]
  simp [h]

theorem isPrefixOf_cons_false_of_word (g c : Char) (w X : List Char)
    (hw : w.isPrefixOf X = false) : (g :: w).isPrefixOf (c :: X) = false := by
  rw [List.isPrefixOf_cons₂, hw, Bool.and_false]

theorem isPrefixOf_cons_false_of_ne (g c : Char) (w X : List Char)
    (hg : (g == c) = false) : (g :: w).isPrefixOf (c :: X) = false := by
  rw [List.isPrefixOf_cons₂, hg, Bool.false_and]

theorem isPrefixOf_append_self : ∀ (w X : List Char), w.isPrefixOf (w ++ X) = true := by
  intro w X
  induction w with
  | nil => simp
  | cons a w' ih => rw [List.cons_append, List.isPrefixOf_cons₂, beq_self_eq_true, ih]; rfl

/-- If two character lists disagree before either ends, neither extends
to a prefix match, whatever follows. -/
theorem isPrefixOf_append_false :
    ∀ (pat s : List Char), s.isPrefixOf pat = false → pat.isPrefixOf s = false →
      ∀ X, pat.isPrefixOf (s ++ X) = false := by
  intro pat
  induction pat with
  | nil => intro s _ h2 X; simp at h2
  | cons p pt ih =>
    intro s h1 h2 X
    cases s with
    | nil => simp at h1
    | cons a st =>
      rw [List.cons_append, List.isPrefixOf_cons₂]
      cases hpa : p == a
      · rfl
      · rw [Bool.true_and]
        have hap : (a == p) = true := by
          rw [beq_iff_eq] at hpa ⊢
          exact hpa.symm
        rw [List.isPrefixOf_cons₂, hap, Bool.true_and] at h1
        rw [List.isPrefixOf_cons₂, hpa, Bool.true_and] at h2
        exact ih st h1 h2 X

theorem replaceAll_fixed_region (p : Char) (w r : List Char) (reg : Str)
    (hreg : ∀ (k : Nat), k < reg.length → ∀ (X : Str),
      (p :: w).isPrefixOf (reg.drop k ++ X) = false) :
    ∀ X, replaceAll p w r (reg ++ X) = reg ++ replaceAll p w r X := by
  induction reg with
  | nil => intro X; simp
  | cons a reg' ih =>
    intro X
    rw [List.cons_append,
      replaceAll_cons_nomatch p w r a (reg' ++ X) (hreg 0 (by simp) X),
      ih (fun k hk Y => hreg (k + 1) (by simpa using hk) Y) X]
    rfl

theorem replaceAll_match (p : Char) (w W : List Char) :
    ∀ X, replaceAll p w (p :: W) ((p :: w) ++ X) = (p :: W) ++ replaceAll p w (p :: W) X := by
  intro X
  rw [List.cons_append, replaceAll_cons, if_pos]
  · rw [show List.drop w.length (w ++ X) = X from List.drop_left w X]
  · rw [List.isPrefixOf_cons₂, beq_self_eq_true, isPrefixOf_append_self]; rfl

/-- Relation between a character of a pass's output and the character it
came from: unchanged, or a lowercase `t`/`f` uppercased. -/
def caseRel (a b : Char) : Prop := a = b ∨ (a = 'T' ∧ b = 't') ∨ (a = 'F' ∧ b = 'f')

theorem caseRel_trans {a b c : Char} (h1 : caseRel a b) (h2 : caseRel b c) : caseRel a c := by
  rcases h1 with rfl | ⟨rfl, rfl⟩ | ⟨rfl, rfl⟩
  · exact h2
  · rcases h2 with rfl | ⟨h, _⟩ | ⟨h, _⟩ <;> simp_all [caseRel]
  · rcases h2 with rfl | ⟨h, _⟩ | ⟨h, _⟩ <;> simp_all [caseRel]

theorem forall₂_caseRel_trans : ∀ {A B C : Str},
    List.Forall₂ caseRel A B → List.Forall₂ caseRel B C → List.Forall₂ caseRel A C := by
  intro A B C h1
  induction h1 generalizing C with
  | nil => intro h2; cases h2; exact .nil
  | cons hab h ih =>
    intro h2
    cases h2 with
    | cons hbc h' => exact .cons (caseRel_trans hab hbc) (ih h')

theorem forall₂_caseRel_replaceAllF (p : Char) (ps r : List Char)
    (hr : List.Forall₂ caseRel r (p :: ps)) :
    ∀ (n : Nat) (l : Str), l.length ≤ n →
      List.Forall₂ caseRel (replaceAllF p ps r n l) l := by
  intro n
  induction n with
  | zero =>
    intro l h
    have : l = [] := List.eq_nil_of_length_eq_zero (Nat.le_zero.mp h)
    subst this
    exact .nil
  | succ n ih =>
    intro l h
    cases l with
    | nil => exact .nil
    | cons c rest =>
      rw [replaceAllF]
      by_cases hp : (p :: ps).isPrefixOf (c :: rest) = true
      · rw [if_pos hp]
        obtain ⟨t, ht⟩ : (p :: ps) <+: (c :: rest) := List.isPrefixOf_iff_prefix.mp hp
        have hdrop : rest.drop ps.length = t := by
          have := congrArg (List.drop (p :: ps).length) ht
          rw [List.drop_left, List.length_cons, List.drop_succ_cons] at this
          exact this.symm
        have hlt : t.length ≤ n := by
          have := congrArg List.length ht
          simp at this ⊢
          simp at h
          omega
        rw [hdrop, ← ht]
        exact List.rel_append hr (ih t hlt)
      · rw [if_neg hp]
        exact .cons (Or.inl rfl) (ih rest (by simp at h; omega))

theorem forall₂_caseRel_replaceAll (p : Char) (ps r : List Char)
    (hr : List.Forall₂ caseRel r (p :: ps)) (l : Str) :
    List.Forall₂ caseRel (replaceAll p ps r l) l :=
  forall₂_caseRel_replaceAllF p ps r hr l.length l (Nat.le_refl _)

theorem isPrefixOf_of_forall₂ :
    ∀ (w l' l : List Char), List.Forall₂ caseRel l' l →
      (∀ x ∈ w, x ≠ 'T' ∧ x ≠ 'F') →
      w.isPrefixOf l' = true → w.isPrefixOf l = true := by
  intro w
  induction w with
  | nil => intro l' l _ _ _; simp
  | cons a w' ih =>
    intro l' l hrel hchars hpre
    cases hrel with
    | nil => simp at hpre
    | cons hab h =>
      rw [List.isPrefixOf_cons₂, Bool.and_eq_true] at hpre
      obtain ⟨ha, hw⟩ := hpre
      have haeq := eq_of_beq ha
      subst haeq
      obtain ⟨hT, hF⟩ := hchars a (List.mem_cons_self a w')
      rcases hab with h1 | ⟨h1, _⟩ | ⟨h1, _⟩
      · subst h1
        rw [List.isPrefixOf_cons₂, beq_self_eq_true, Bool.true_and]
        exact ih _ _ h (fun x hx => hchars x (List.mem_cons_of_mem a hx)) hw
      · exact absurd h1 hT
      · exact absurd h1 hF

theorem isPrefixOf_false_transfer (w l' l : List Char)
    (hchars : ∀ x ∈ w, x ≠ 'T' ∧ x ≠ 'F')
    (hrel : List.Forall₂ caseRel l' l)
    (h : w.isPrefixOf l = false) : w.isPrefixOf l' = false := by
  cases hx : w.isPrefixOf l'
  · rfl
  · exact absurd (isPrefixOf_of_forall₂ w l' l hrel hchars hx) (by simp [h])

/-- The chain `normalizeBooleans` is the fold of its ten passes. -/
theorem normalizeBooleans_eq_applyPasses (s : Str) :
    normalizeBooleans s = applyPasses passes s := by
  simp [normalizeBooleans, applyPasses, passes, applyPass]

theorem applyPasses_cons (pa : Char × Bool) (ps : List (Char × Bool)) (s : Str) :
    applyPasses (pa :: ps) s = applyPasses ps (applyPass pa s) := rfl

theorem applyPasses_append (l1 l2 : List (Char × Bool)) (s : Str) :
    applyPasses (l1 ++ l2) s = applyPasses l2 (applyPasses l1 s) := by
  simp [applyPasses, List.foldl_append]

theorem forall₂_caseRel_applyPass (pa : Char × Bool) (l : Str) :
    List.Forall₂ caseRel (applyPass pa l) l := by
  refine forall₂_caseRel_replaceAll _ _ _ ?_ l
  rcases pa with ⟨g, b⟩
  cases b <;> simp [tUp, tLow, fUp, fLow, caseRel]

theorem applyPass_region (pa : Char × Bool) (reg : Str)
    (h : ∀ k, k < reg.length →
      (reg.drop k).isPrefixOf (pa.1 :: (if pa.2 then tLow else fLow)) = false ∧
      (pa.1 :: (if pa.2 then tLow else fLow)).isPrefixOf (reg.drop k) = false) :
    ∀ X, applyPass pa (reg ++ X) = reg ++ applyPass pa X :=
  replaceAll_fixed_region _ _ _ reg
    (fun k hk X => isPrefixOf_append_false _ _ (h k hk).1 (h k hk).2 X)

theorem applyPasses_region :
    ∀ (ps : List (Char × Bool)) (reg : Str), regionSafe ps reg →
      ∀ X, applyPasses ps (reg ++ X) = reg ++ applyPasses ps X := by
  intro ps
  induction ps with
  | nil => intro reg _ X; rfl
  | cons pa ps ih =>
    intro reg h X
    rw [applyPasses_cons, applyPass_region pa reg (h pa (List.mem_cons_self pa ps)) X,
      ih reg (fun q hq => h q (List.mem_cons_of_mem pa hq)) (applyPass pa X),
      applyPasses_cons]

theorem applyPass_cons_nomatch (pa : Char × Bool) (c : Char) (l : Str)
    (h : (pa.1 :: (if pa.2 then tLow else fLow)).isPrefixOf (c :: l) = false) :
    applyPass pa (c :: l) = c :: applyPass pa l :=
  replaceAll_cons_nomatch _ _ _ _ _ h

theorem applyPass_match (c : Char) (b : Bool) :
    ∀ X, applyPass (c, b) ((c :: (if b then tLow else fLow)) ++ X) =
      (c :: (if b then tUp else fUp)) ++ applyPass (c, b) X := fun X =>
  replaceAll_match c (if b then tLow else fLow) (if b then tUp else fUp) X

/-- A pass chain containing the matching pass `(c, b)` rewrites the head
region `c ++ word` to `c ++ Word` and acts independently on the rest. -/
theorem applyPasses_match_step (c : Char) (b : Bool) (w W : List Char)
    (hw : (if b then tLow else fLow) = w) (hW : (if b then tUp else fUp) = W)
    (pre post : List (Char × Bool))
    (hsplit : passes = pre ++ (c, b) :: post)
    (hpre : regionSafe pre (c :: w))
    (hpost : regionSafe post (c :: W)) :
    ∀ Y, applyPasses passes ((c :: w) ++ Y) = (c :: W) ++ applyPasses passes Y := by
  subst hw
  subst hW
  intro Y
  have hsplit2 : ∀ s, applyPasses (pre ++ (c, b) :: post) s =
      applyPasses post (applyPass (c, b) (applyPasses pre s)) := by
    intro s
    rw [show pre ++ (c, b) :: post = pre ++ ([(c, b)] ++ post) from rfl,
      applyPasses_append, applyPasses_append]
    rfl
  rw [hsplit, hsplit2, hsplit2,
    applyPasses_region pre _ hpre,
    applyPass_match c b, applyPasses_region post _ hpost]

theorem applyPasses_cons_of_no_word :
    ∀ (ps : List (Char × Bool)) (c : Char) (rest : Str),
      tLow.isPrefixOf rest = false → fLow.isPrefixOf rest = false →
      applyPasses ps (c :: rest) = c :: applyPasses ps rest := by
  intro ps
  induction ps with
  | nil => intro c rest _ _; rfl
  | cons pa ps ih =>
    intro c rest ht hf
    have hword : (if pa.2 then tLow else fLow).isPrefixOf rest = false := by
      cases hb : pa.2
      · simpa using hf
      · simpa using ht
    rw [applyPasses_cons pa ps (c :: rest),
      applyPass_cons_nomatch pa c rest (isPrefixOf_cons_false_of_word _ _ _ _ hword),
      applyPasses_cons pa ps rest]
    have hrel := forall₂_caseRel_applyPass pa rest
    exact ih c (applyPass pa rest)
      (isPrefixOf_false_transfer tLow _ _ (by decide) hrel ht)
      (isPrefixOf_false_transfer fLow _ _ (by decide) hrel hf)

theorem applyPasses_cons_of_ne :
    ∀ (ps : List (Char × Bool)) (c : Char) (rest : Str),
      (∀ pa ∈ ps, (pa.1 == c) = false) →
      applyPasses ps (c :: rest) = c :: applyPasses ps rest := by
  intro ps
  induction ps with
  | nil => intro c rest _; rfl
  | cons pa ps ih =>
    intro c rest h
    rw [applyPasses_cons pa ps (c :: rest),
      applyPass_cons_nomatch pa c rest
        (isPrefixOf_cons_false_of_ne _ _ _ _ (h pa (List.mem_cons_self pa ps))),
      applyPasses_cons pa ps rest]
    exact ih c (applyPass pa rest) (fun q hq => h q (List.mem_cons_of_mem pa hq))

theorem spec_step_t (c : Char) (hc : structuralChars.contains c = true) :
    ∀ Y, normalizeBooleansSpec ((c :: tLow) ++ Y) = (c :: tUp) ++ normalizeBooleansSpec Y := by
  intro Y
  rw [show (c :: tLow) ++ Y = c :: (tLow ++ Y) from rfl]
  rw [normalizeBooleansSpec]
  rw [if_pos (by rw [hc, isPrefixOf_append_self]; rfl)]
  rw [show List.drop 4 (tLow ++ Y) = Y from List.drop_left tLow Y]
  rfl

theorem spec_step_f (c : Char) (hc : structuralChars.contains c = true) :
    ∀ Y, normalizeBooleansSpec ((c :: fLow) ++ Y) = (c :: fUp) ++ normalizeBooleansSpec Y := by
  intro Y
  rw [show (c :: fLow) ++ Y = c :: (fLow ++ Y) from rfl]
  rw [normalizeBooleansSpec]
  rw [if_neg (by rw [show tLow.isPrefixOf (fLow ++ Y) = false from rfl]; simp)]
  rw [if_pos (by rw [hc, isPrefixOf_append_self]; rfl)]
  rw [show List.drop 5 (fLow ++ Y) = Y from List.drop_left fLow Y]
  rfl

theorem spec_cons_nomatch (c : Char) (rest : Str)
    (h1 : (structuralChars.contains c && tLow.isPrefixOf rest) = false)
    (h2 : (structuralChars.contains c && fLow.isPrefixOf rest) = false) :
    normalizeBooleansSpec (c :: rest) = c :: normalizeBooleansSpec rest := by
  rw [normalizeBooleansSpec]
  rw [if_neg (by simp only [h1]; simp), if_neg (by simp only [h2]; simp)]

theorem normalizeBooleans_eq_spec_aux :
    ∀ (n : Nat) (l : Str), l.length ≤ n →
      applyPasses passes l = normalizeBooleansSpec l := by
  intro n
  induction n with
  | zero =>
    intro l h
    have : l = [] := List.eq_nil_of_length_eq_zero (Nat.le_zero.mp h)
    subst this
    rw [show applyPasses passes [] = [] from rfl, normalizeBooleansSpec]
  | succ n ih =>
    intro l h
    cases l with
    | nil => rw [show applyPasses passes [] = [] from rfl, normalizeBooleansSpec]
    | cons c rest =>
      by_cases hc : structuralChars.contains c = true
      · cases ht : tLow.isPrefixOf rest
        · cases hf : fLow.isPrefixOf rest
          · rw [applyPasses_cons_of_no_word passes c rest ht hf,
              spec_cons_nomatch c rest (by simp [ht]) (by simp [hf]),
              ih rest (by simp at h; omega)]
          · obtain ⟨rest', hr⟩ : fLow <+: rest := List.isPrefixOf_iff_prefix.mp hf
            subst hr
            have hlen' : rest'.length ≤ n := by
              simp [fLow] at h
              omega
            have hc' : c = ' ' ∨ c = ':' ∨ c = ',' ∨ c = '[' ∨ c = '{' := by
              simpa [structuralChars] using hc
            rcases hc' with rfl | rfl | rfl | rfl | rfl
            · rw [show ' ' :: (fLow ++ rest') = (' ' :: fLow) ++ rest' from rfl,
                applyPasses_match_step ' ' false fLow fUp rfl rfl
                  [(' ', true)]
                  [(':', true), (':', false), ('[', true), ('[', false), (',', true), (',', false), ('{', true), ('{', false)]
                  rfl (by decide) (by decide) rest',
                spec_step_f ' ' (by decide) rest', ih rest' hlen']
            · rw [show ':' :: (fLow ++ rest') = (':' :: fLow) ++ rest' from rfl,
                applyPasses_match_step ':' false fLow fUp rfl rfl
                  [(' ', true), (' ', false), (':', true)]
                  [('[', true), ('[', false), (',', true), (',', false), ('{', true), ('{', false)]
                  rfl (by decide) (by decide) rest',
                spec_step_f ':' (by decide) rest', ih rest' hlen']
            · rw [show ',' :: (fLow ++ rest') = (',' :: fLow) ++ rest' from rfl,
                applyPasses_match_step ',' false fLow fUp rfl rfl
                  [(' ', true), (' ', false), (':', true), (':', false), ('[', true), ('[', false), (',', true)]
                  [('{', true), ('{', false)]
                  rfl (by decide) (by decide) rest',
                spec_step_f ',' (by decide) rest', ih rest' hlen']
            · rw [show '[' :: (fLow ++ rest') = ('[' :: fLow) ++ rest' from rfl,
                applyPasses_match_step '[' false fLow fUp rfl rfl
                  [(' ', true), (' ', false), (':', true), (':', false), ('[', true)]
                  [(',', true), (',', false), ('{', true), ('{', false)]
                  rfl (by decide) (by decide) rest',
                spec_step_f '[' (by decide) rest', ih rest' hlen']
            · rw [show '{' :: (fLow ++ rest') = ('{' :: fLow) ++ rest' from rfl,
                applyPasses_match_step '{' false fLow fUp rfl rfl
                  [(' ', true), (' ', false), (':', true), (':', false), ('[', true), ('[', false), (',', true), (',', false), ('{', true)]
                  []
                  rfl (by decide) (by decide) rest',
                spec_step_f '{' (by decide) rest', ih rest' hlen']
        · obtain ⟨rest', hr⟩ : tLow <+: rest := List.isPrefixOf_iff_prefix.mp ht
          subst hr
          have hlen' : rest'.length ≤ n := by
            simp [tLow] at h
            omega
          have hc' : c = ' ' ∨ c = ':' ∨ c = ',' ∨ c = '[' ∨ c = '{' := by
            simpa [structuralChars] using hc
          rcases hc' with rfl | rfl | rfl | rfl | rfl
          · rw [show ' ' :: (tLow ++ rest') = (' ' :: tLow) ++ rest' from rfl,
              applyPasses_match_step ' ' true tLow tUp rfl rfl
                []
                [(' ', false), (':', true), (':', false), ('[', true), ('[', false), (',', true), (',', false), ('{', true), ('{', false)]
                rfl (by decide) (by decide) rest',
              spec_step_t ' ' (by decide) rest', ih rest' hlen']
          · rw [show ':' :: (tLow ++ rest') = (':' :: tLow) ++ rest' from rfl,
              applyPasses_match_step ':' true tLow tUp rfl rfl
                [(' ', true), (' ', false)]
                [(':', false), ('[', true), ('[', false), (',', true), (',', false), ('{', true), ('{', false)]
                rfl (by decide) (by decide) rest',
              spec_step_t ':' (by decide) rest', ih rest' hlen']
          · rw [show ',' :: (tLow ++ rest') = (',' :: tLow) ++ rest' from rfl,
              applyPasses_match_step ',' true tLow tUp rfl rfl
                [(' ', true), (' ', false), (':', true), (':', false), ('[', true), ('[', false)]
                [(',', false), ('{', true), ('{', false)]
                rfl (by decide) (by decide) rest',
              spec_step_t ',' (by decide) rest', ih rest' hlen']
          · rw [show '[' :: (tLow ++ rest') = ('[' :: tLow) ++ rest' from rfl,
              applyPasses_match_step '[' true tLow tUp rfl rfl
                [(' ', true), (' ', false), (':', true), (':', false)]
                [('[', false), (',', true), (',', false), ('{', true), ('{', false)]
                rfl (by decide) (by decide) rest',
              spec_step_t '[' (by decide) rest', ih rest' hlen']
          · rw [show '{' :: (tLow ++ rest') = ('{' :: tLow) ++ rest' from rfl,
              applyPasses_match_step '{' true tLow tUp rfl rfl
                [(' ', true), (' ', false), (':', true), (':', false), ('[', true), ('[', false), (',', true), (',', false)]
                [('{', false)]
                rfl (by decide) (by decide) rest',
              spec_step_t '{' (by decide) rest', ih rest' hlen']
      · have hcf : structuralChars.contains c = false := by
          cases hx : structuralChars.contains c
          · rfl
          · exact absurd hx hc
        have hne : ∀ pa ∈ passes, (pa.1 == c) = false := by
          have hmem : ∀ pa ∈ passes, structuralChars.contains pa.1 = true := by decide
          intro pa hpa
          rw [beq_eq_false_iff_ne]
          intro he
          have hx := hmem pa hpa
          rw [he, hcf] at hx
          cases hx
        rw [applyPasses_cons_of_ne passes c rest hne,
          spec_cons_nomatch c rest (by rw [hcf]; rfl) (by rw [hcf]; rfl),
          ih rest (by simp at h; omega)]

theorem normalizeBooleans_eq_spec (l : Str) :
    normalizeBooleans l = normalizeBooleansSpec l := by
  rw [normalizeBooleans_eq_applyPasses]
  exact normalizeBooleans_eq_spec_aux l.length l (Nat.le_refl _)

/-- C3: the boolean normalization rewrites exactly the lowercase
`true`/`false` occurrences immediately preceded by a space, `:`, `,`,
`[` or `{` (to `True`/`False`), and nothing else — it equals the
one-pass positional rewrite `normalizeBooleansSpec`; consequently the
raw value `{"enabled": true, "n": 3}` parses to a structured mapping
with the boolean `true` and the integer `3`. -/
theorem boolean_normalization_characterized :
    (∀ raw : Str, normalizeBooleans raw = normalizeBooleansSpec raw) ∧
    parse_value "\x7b\"enabled\": true, \"n\": 3\x7d".toList =
      .structured (.dict [(.str "enabled".toList, .bool true),
                          (.str "n".toList, .int 3)]) :=
  ⟨normalizeBooleans_eq_spec, by rfl⟩

/-!
## C8 — section and key order
-/

theorem map_fst_addToSection (doc : IniDoc) (sec k v : Str) :
    (addToSection doc sec k v).map Prod.fst = doc.map Prod.fst := by
  unfold addToSection
  rw [List.map_map]
  apply List.map_congr_left
  intro a _
  by_cases h : a.1 = sec <;> simp [h]

theorem lookup_addToSection_self :
    ∀ (doc : IniDoc) (sec k v : Str) (items : List (Str × Str)),
      doc.lookup sec = some items →
      (addToSection doc sec k v).lookup sec = some (items ++ [(k, v)]) := by
  intro doc
  induction doc with
  | nil => intro sec k v items h; simp [List.lookup] at h
  | cons x rest ih =>
    intro sec k v items h
    rw [List.lookup] at h
    cases hx : sec == x.1
    · rw [hx] at h
      have hne : x.1 ≠ sec := fun he => by rw [he, beq_self_eq_true] at hx; cases hx
      have hhead : addToSection (x :: rest) sec k v = x :: addToSection rest sec k v := by
        unfold addToSection
        rw [List.map_cons, if_neg hne]
      rw [hhead, List.lookup, hx]
      exact ih sec k v items h
    · rw [hx] at h
      have h2 : x.2 = items := by simpa using h
      have heq : sec = x.1 := eq_of_beq hx
      subst heq
      have hhead : addToSection (x :: rest) x.1 k v =
          (x.1, x.2 ++ [(k, v)]) :: addToSection rest x.1 k v := by
        unfold addToSection
        rw [List.map_cons, if_pos rfl]
      rw [hhead, List.lookup, beq_self_eq_true]
      simp [h2]

theorem lookup_addToSection_ne :
    ∀ (doc : IniDoc) (sec k v s : Str), s ≠ sec →
      (addToSection doc sec k v).lookup s = doc.lookup s := by
  intro doc
  induction doc with
  | nil => intro sec k v s _; rfl
  | cons x rest ih =>
    intro sec k v s hne
    by_cases hsec : x.1 = sec
    · have hbx : (s == x.1) = false := by
        rw [beq_eq_false_iff_ne]
        exact fun he => hne (he.trans hsec)
      have hhead : addToSection (x :: rest) sec k v =
          (x.1, x.2 ++ [(k, v)]) :: addToSection rest sec k v := by
        unfold addToSection
        rw [List.map_cons, if_pos hsec]
      rw [hhead, List.lookup, List.lookup, hbx]
      exact ih sec k v s hne
    · have hhead : addToSection (x :: rest) sec k v = x :: addToSection rest sec k v := by
        unfold addToSection
        rw [List.map_cons, if_neg hsec]
      rw [hhead, List.lookup, List.lookup]
      cases hbx : s == x.1
      · exact ih sec k v s hne
      · rfl

theorem docKeys_append_nil :
    ∀ (acc : IniDoc) (s' s : Str), docKeys (acc ++ [(s', [])]) s = docKeys acc s := by
  intro acc
  induction acc with
  | nil =>
    intro s' s
    unfold docKeys
    cases h : s == s' <;> simp [List.lookup, h]
  | cons x rest ih =>
    intro s' s
    unfold docKeys at *
    rw [List.cons_append, List.lookup, List.lookup]
    cases h : s == x.1
    · exact ih s' s
    · rfl

/-- The reading loop preserves textual order: final sections are the
accumulated ones followed by the headers of the remaining lines, and the
keys of every section are the accumulated ones followed by the remaining
`key = value` lines under that section. -/
theorem readLines_order :
    ∀ (lines : List IniLine) (acc : IniDoc) (cur : Option Str) (doc : IniDoc),
      readLines acc cur lines = .ok doc →
      doc.map Prod.fst = acc.map Prod.fst ++ sectionNamesOf lines ∧
      ∀ s, docKeys doc s = docKeys acc s ++ keysUnder cur s lines := by
  intro lines
  induction lines with
  | nil =>
    intro acc cur doc h
    simp only [readLines, Except.ok.injEq] at h
    subst h
    simp [sectionNamesOf, keysUnder]
  | cons line rest ih =>
    intro acc cur doc h
    cases line with
    | sectionHead s' =>
      simp only [readLines] at h
      by_cases hc : ((acc.map Prod.fst).contains s') = true
      · rw [if_pos hc] at h; exact Except.noConfusion h
      · rw [if_neg hc] at h
        obtain ⟨hA, hB⟩ := ih (acc ++ [(s', [])]) (some s') doc h
        constructor
        · rw [hA]
          simp [sectionNamesOf]
        · intro s
          rw [hB s, docKeys_append_nil]
          rfl
    | kv k v =>
      cases cur with
      | none => simp only [readLines] at h; exact Except.noConfusion h
      | some sec =>
        simp only [readLines] at h
        cases hl : acc.lookup sec with
        | none => rw [hl] at h; exact Except.noConfusion h
        | some items =>
          rw [hl] at h
          replace h : (if (items.map Prod.fst).contains (lower k) = true
              then Except.error ()
              else readLines (addToSection acc sec (lower k) v) (some sec) rest) =
              Except.ok doc := h
          by_cases hdup : ((items.map Prod.fst).contains (lower k)) = true
          · rw [if_pos hdup] at h; exact Except.noConfusion h
          · rw [if_neg hdup] at h
            obtain ⟨hA, hB⟩ := ih (addToSection acc sec (lower k) v) (some sec) doc h
            constructor
            · rw [hA, map_fst_addToSection]
              simp [sectionNamesOf]
            · intro s
              rw [hB s]
              by_cases hs : sec = s
              · subst hs
                unfold docKeys
                rw [lookup_addToSection_self acc sec (lower k) v items hl, hl]
                simp [keysUnder]
              · unfold docKeys
                rw [lookup_addToSection_ne acc sec (lower k) v s (Ne.symm hs)]
                have : (some sec = some s) = False := by simp [hs]
                simp [keysUnder, this]

theorem dictKeys_mapDoc (g : Str × List (Str × Str) → List (Str × TypedValue))
    (hg : ∀ x, (g x).map Prod.fst = x.2.map Prod.fst) :
    ∀ (doc : IniDoc) (s : Str),
      dictKeys (doc.map (fun x => (x.1, g x))) s = docKeys doc s := by
  intro doc
  induction doc with
  | nil => intro s; rfl
  | cons x rest ih =>
    intro s
    unfold dictKeys docKeys at *
    rw [List.map_cons, List.lookup, List.lookup]
    cases hb : s == x.1
    · exact ih s
    · exact hg x

/-- C8: for every successfully read document, `to_dict` (and the
`settings_import` dictionary) lists the sections in order of first
appearance in the source lines, and the keys of each section in order of
first appearance within it. -/
theorem document_order_preserved :
    ∀ (lines : List IniLine) (doc : IniDoc), readIni lines = .ok doc →
      (to_dict doc).map Prod.fst = sectionNamesOf lines ∧
      (settings_import_ahlib doc).1.map Prod.fst = sectionNamesOf lines ∧
      ∀ s : Str, dictKeys (to_dict doc) s = keysUnder none s lines ∧
        dictKeys ((settings_import_ahlib doc).1) s = keysUnder none s lines := by
  intro lines doc h
  obtain ⟨hA, hB⟩ := readLines_order lines [] none doc h
  have hfst : ∀ x : Str × List (Str × Str),
      ((x.2.map (fun kv => (kv.1, parse_value kv.2))).map Prod.fst) = x.2.map Prod.fst := by
    intro x
    rw [List.map_map]
    rfl
  have hfst2 : ∀ x : Str × List (Str × Str),
      ((x.2.map (fun kv => (kv.1, importValueA kv.2))).map Prod.fst) = x.2.map Prod.fst := by
    intro x
    rw [List.map_map]
    rfl
  have hto : to_dict doc = doc.map (fun x => (x.1, x.2.map (fun kv => (kv.1, parse_value kv.2)))) := rfl
  have him : (settings_import_ahlib doc).1 =
      doc.map (fun x => (x.1, x.2.map (fun kv => (kv.1, importValueA kv.2)))) := by
    rw [settings_import_ahlib_eq]
    rfl
  have hsec : ∀ (g : Str × List (Str × Str) → List (Str × TypedValue)),
      (doc.map (fun x => (x.1, g x))).map Prod.fst = doc.map Prod.fst := by
    intro g
    rw [List.map_map]
    rfl
  refine ⟨?_, ?_, fun s => ⟨?_, ?_⟩⟩
  · rw [hto, hsec, hA]; rfl
  · rw [him, hsec, hA]; rfl
  · rw [hto, dictKeys_mapDoc _ hfst doc s, hB s]; rfl
  · rw [him, dictKeys_mapDoc _ hfst2 doc s, hB s]; rfl

theorem document_order_preserved_witness :
    readIni linesEx = .ok docEx ∧
    (to_dict docEx).map Prod.fst = ["B".toList, "A".toList] ∧
    (settings_import_ahlib docEx).1.map Prod.fst = ["B".toList, "A".toList] ∧
    dictKeys (to_dict docEx) "A".toList = ["y".toList, "x".toList] ∧
    dictKeys (to_dict docEx) "B".toList = ["x".toList] :=
  ⟨rfl,
   (document_order_preserved linesEx docEx rfl).1.trans (by rfl),
   (document_order_preserved linesEx docEx rfl).2.1.trans (by rfl),
   ((document_order_preserved linesEx docEx rfl).2.2 "A".toList).1.trans (by rfl),
   ((document_order_preserved linesEx docEx rfl).2.2 "B".toList).1.trans (by rfl)⟩

end Ahlib
